import Mathlib

/-!
Verification of the BuyBot automation core against its specification.

Shallow embedding conventions:
* Python floats (prices, balances) are modelled as rationals `ℚ` (exact
  arithmetic; the claims under study do not hinge on rounding).
* OCR text is modelled as `List Char`.
* The stateful worker methods are modelled as explicit state-passing
  functions; the environment (OCR readings, click success, window focus)
  is passed in as explicit inputs.

The file is organised as: all definitions first (source embeddings from
`ocr.py` and `bot_worker.py`, and clearly marked specification-side
predicates used to state refinement claims), then the lemmas and claim
theorems.
-/

namespace BuyBot

/-! Section: TradeRecorder (`BotWorker._log_trade`, bot_worker.py lines 214-231)

The source mutates `self._params.current_balance`:
```
spent = total_price
self._params.current_balance -= spent
if self._params.current_balance < 0:
    self._params.current_balance = 0
```
We model the balance update as a pure function and a recording sequence as
iterated application over the list of amounts spent. -/

def logTradeBalance (balance spent : ℚ) : ℚ :=
  let b := balance - spent
  if b < 0 then 0 else b

/-- The list of balances observed after each successive trade recording,
starting from balance `b0`. -/
def balancesAfter (b0 : ℚ) : List ℚ → List ℚ
  | [] => []
  | s :: ss =>
    let b1 := logTradeBalance b0 s
    b1 :: balancesAfter b1 ss

/-! Section: NumericTextParser (`parse_numeric`, ocr.py lines 41-104)

The helpers below translate, line by line, the Python implementation:
the whitespace stripping chain of `.replace` calls, the regex search for
the first run of `[\d.,'’]+`, `_looks_like_thousands` (built on Python
`str.split`), `_has_decimal_sep` (the regex `sep` followed by 1-2 digits
at the end), the separator-decision cascade, the final token rewriting,
and `float(token)` on the reachable token alphabet (digits and dots). -/

/-- ASCII apostrophe. -/
def apos : Char := Char.ofNat 39

/-- Typographic right single quote U+2019. -/
def rsquo : Char := Char.ofNat 8217

/-- ASCII comma. -/
def comma : Char := Char.ofNat 44

/-- ASCII full stop. -/
def dot : Char := Char.ofNat 46

/-- The characters removed by the `.replace(..., "")` chain at the top of
`parse_numeric`: space, NBSP, narrow NBSP, newline, carriage return, tab. -/
def isWsLike (c : Char) : Bool :=
  c = Char.ofNat 32 || c = Char.ofNat 160 || c = Char.ofNat 8239 ||
  c = Char.ofNat 10 || c = Char.ofNat 13 || c = Char.ofNat 9

/-- The character class of the candidate regex `[\d.,'’]`. -/
def isCandChar (c : Char) : Bool :=
  c.isDigit || c = dot || c = comma || c = apos || c = rsquo

/-- Models `re.search` of a one-character-class `+` pattern: the first maximal
contiguous run of characters satisfying `p`, or `none`. -/
def firstRun (p : Char → Bool) : List Char → Option (List Char)
  | [] => none
  | c :: cs => if p c then some (c :: cs.takeWhile p) else firstRun p cs

/-- Lines 42-54 of ocr.py: strip whitespace variants, extract the first
candidate run, drop apostrophe-like characters. -/
def extractToken (text : List Char) : Option (List Char) :=
  let cleaned := text.filter (fun c => !(isWsLike c))
  match firstRun isCandChar cleaned with
  | none => none
  | some t => some (t.filter (fun c => !(c = apos || c = rsquo)))

/-- Python `str.split(sep)` on a single-character separator: every
occurrence splits, empty parts are kept (`",".split(",") = ["", ""]`). -/
def pySplit (sep : Char) : List Char → List (List Char)
  | [] => [[]]
  | c :: cs =>
    match pySplit sep cs with
    | [] => [[]]
    | p :: ps => if c = sep then [] :: p :: ps else (c :: p) :: ps

/-- Python `str.isdigit` restricted to ASCII digits (the OCR whitelist only
produces ASCII): nonempty and all digits. -/
def isdigitStr (s : List Char) : Bool := !s.isEmpty && s.all Char.isDigit

/-- Embedding of `_looks_like_thousands` (ocr.py lines 59-68): split on the separator;
needs at least two parts (`len(parts) < 2` returns False), a final part
`parts[-1]` of exactly three digits, all middle parts `parts[1:-1]` of
exactly three digits, and a leading part `parts[0]` of digits.  The
early-return chain is rendered as the conjunction of the same checks. -/
def looks_like_thousands (sample : List Char) (sep : Char) : Bool :=
  match pySplit sep sample with
  | [] => false
  | [_] => false
  | p0 :: p1 :: ps =>
    (isdigitStr ((p1 :: ps).getLast (by simp)) &&
      ((p1 :: ps).getLast (by simp)).length == 3) &&
    ((p1 :: ps).dropLast.all fun mid => isdigitStr mid && mid.length == 3) &&
    isdigitStr p0

/-- Embedding of `_has_decimal_sep` (ocr.py lines 56-57): `re.search` of the separator
followed by one or two digits at the end of the string. -/
def has_decimal_sep (sample : List Char) (sep : Char) : Bool :=
  match sample.reverse with
  | d1 :: c2 :: rest =>
    if !d1.isDigit then false
    else if c2 = sep then true
    else
      match rest with
      | c3 :: _ => c2.isDigit && c3 = sep
      | [] => false
  | _ => false

/-- The separator-decision cascade (ocr.py lines 70-92); returns
`(decimal_sep, thousands_sep)` with `none` for "unset".  `rfind x > rfind y`
(both characters present) is expressed as
`indexOf x reverse < indexOf y reverse`. -/
def decideSeps (token : List Char) : Option Char × Option Char :=
  if comma ∈ token ∧ dot ∈ token then
    if token.reverse.indexOf comma < token.reverse.indexOf dot
    then (some comma, some dot)
    else (some dot, some comma)
  else if comma ∈ token then
    if looks_like_thousands token comma then (none, some comma)
    else if has_decimal_sep token comma then (some comma, none)
    else (none, some comma)
  else if dot ∈ token then
    if looks_like_thousands token dot then (none, some dot)
    else if has_decimal_sep token dot then (some dot, none)
    else (none, some dot)
  else (none, none)

/-- The token rewriting (ocr.py lines 94-100): strip the thousands
separator; rewrite a non-dot decimal separator to a dot (every occurrence,
as Python `str.replace` does); with no decimal separator strip all commas
and dots. -/
def transformToken (token : List Char) : List Char :=
  let ds := decideSeps token
  let t1 := match ds.2 with
    | some th => token.filter (fun c => !(c = th))
    | none => token
  match ds.1 with
  | some d =>
    if d = dot then t1
    else t1.map (fun c => if c = d then dot else c)
  | none => t1.filter (fun c => !(c = comma) && !(c = dot))

/-- Numeric value of a big-endian ASCII digit string. -/
def natValBE (l : List Char) : ℕ := l.foldl (fun a c => 10 * a + (c.toNat - 48)) 0

/-- Python `float(token)` on the reachable token alphabet (digits and dots;
every other character makes conversion fail): at most one dot and at least
one digit, `"1."` is `1.0`, `".5"` is `0.5`, `"."` and `""` fail, two or
more dots fail.  Values are modelled as exact rationals. -/
def floatOfToken (l : List Char) : Option ℚ :=
  match pySplit dot l with
  | [ip] => if isdigitStr ip then some (natValBE ip) else none
  | [ip, fp] =>
    if (ip.all Char.isDigit && fp.all Char.isDigit) && !(ip.isEmpty && fp.isEmpty)
    then some ((natValBE ip : ℚ) + (natValBE fp : ℚ) / (10 : ℚ) ^ fp.length)
    else none
  | _ => none

/-- Embedding of `parse_numeric` (ocr.py lines 41-104): extract the token, decide and
apply separator handling, convert; any failure yields `none`. -/
def parse_numeric (text : List Char) : Option ℚ :=
  match extractToken text with
  | none => none
  | some tok => floatOfToken (transformToken tok)

/-! Section: Specification-side predicates for the parser claims

These formalise the spec's wording independently of the implementation;
the claim theorems relate them to the source functions above. -/

/-- Concatenation of separator-prefixed groups: `sep g₁ sep g₂ … sep gₙ`. -/
def sepJoin (sep : Char) (gs : List (List Char)) : List Char :=
  (gs.map (fun g => sep :: g)).flatten

/-- Specification wording: the token "matches the grouped-digits shape (a
leading digit group followed by one-or-more exactly-3-digit groups with
nothing after the final group)". -/
def GroupedShape (token : List Char) (sep : Char) : Prop :=
  ∃ lead gs, token = lead ++ sepJoin sep gs ∧
    lead ≠ [] ∧ lead.all Char.isDigit ∧ gs ≠ [] ∧
    ∀ g ∈ gs, g.length = 3 ∧ g.all Char.isDigit = true

/-- Specification wording: "exactly 1–2 digits follow it at the string's
end". -/
def ShortDecimalTail (token : List Char) (sep : Char) : Prop :=
  ∃ pre d, token = pre ++ sep :: d ∧ d ≠ [] ∧ d.length ≤ 2 ∧
    d.all Char.isDigit = true

/-- Specification wording: among two separator characters both present,
`sep` is "the one appearing last in the string": some occurrence of `sep`
has no occurrence of `other` after it. -/
def LastSeparator (token : List Char) (sep other : Char) : Prop :=
  ∃ pre suf, token = pre ++ sep :: suf ∧ other ∉ suf

/-- Specification-side arithmetic mean of a list of values, `none` when the
list is empty. -/
def meanOfList (l : List ℚ) : Option ℚ :=
  if l = [] then none else some (l.sum / l.length)

/-- Little-endian decimal digit characters of a natural number. -/
def natDigitsLE (n : ℕ) : List Char :=
  (Nat.digits 10 n).map (fun d => Char.ofNat (48 + d))

/-- The decimal digit string of a natural number (big-endian, `"0"` for
zero). -/
def natStr (n : ℕ) : List Char :=
  if n = 0 then [Char.ofNat 48] else (natDigitsLE n).reverse

/-- Split a digit string into 3-digit groups from the right; the leading
group keeps 1–3 digits. -/
def group3BE (D : List Char) : List (List Char) :=
  if _h : D.length ≤ 3 then [D]
  else group3BE (D.take (D.length - 3)) ++ [D.drop (D.length - 3)]
  termination_by D.length
  decreasing_by
    simp only [List.length_take]
    omega

/-- A natural number formatted with 3-digit grouping using the single
thousands separator `sep` (no decimal part). -/
def format3 (n : ℕ) (sep : Char) : List Char :=
  match group3BE (natStr n) with
  | [] => []
  | g0 :: gs => g0 ++ sepJoin sep gs

/-! Section: PriceSampler (`read_price_average`, ocr.py lines 107-121)

The OCR engine is a black box; we model one run of the sampling loop by the
list of raw texts the engine returned, one per attempt. -/

/-- Python `str.strip()` on the whitespace the OCR output can contain. -/
def pyStrip (s : List Char) : List Char :=
  ((s.dropWhile Char.isWhitespace).reverse.dropWhile Char.isWhitespace).reverse

/-- Embedding of `read_price_average`: collect the stripped raw text of every attempt,
parse each attempt's text, and average the successful values; `none` when
no attempt parsed. -/
def read_price_average (texts : List (List Char)) : Option ℚ × List (List Char) :=
  let results := texts.filterMap parse_numeric
  let raw_samples := texts.map pyStrip
  if results.isEmpty then (none, raw_samples)
  else (some (results.sum / results.length), raw_samples)

/-! Section: Focus guard (`BotWorker._ensure_target_window`, bot_worker.py
lines 233-250)

State: the `_focus_warning_active` flag.  Inputs per check: whether a
target window title is configured and whether the active window title
matches.  Output: whether the guard passes, the new flag, and the status
strings emitted during the check. -/

inductive FocusStatus
  | waitingForTargetFocus
  | targetFocusReady
  deriving DecidableEq

def ensure_target_window (targetConfigured activeMatches warnActive : Bool) :
    Bool × Bool × List FocusStatus :=
  if !targetConfigured then (true, warnActive, [])
  else if !activeMatches then
    if !warnActive then (false, true, [.waitingForTargetFocus])
    else (false, true, [])
  else
    if warnActive then (true, false, [.targetFocusReady])
    else (true, false, [])

/-- Run a sequence of guard checks from a given warning flag, collecting
the pass/fail results and all emitted statuses. -/
def runGuard (targetConfigured : Bool) (warn : Bool) :
    List Bool → List Bool × List FocusStatus
  | [] => ([], [])
  | a :: rest =>
    let r := ensure_target_window targetConfigured a warn
    let t := runGuard targetConfigured r.2.1 rest
    (r.1 :: t.1, r.2.2 ++ t.2)

/-- Specification-side count of focused→unfocused transitions in a
presence sequence, `prev` being the presence before the sequence (the run
starts "focused": no warning active). -/
def fallingEdges (prev : Bool) : List Bool → ℕ
  | [] => 0
  | a :: rest => (if prev && !a then 1 else 0) + fallingEdges a rest

/-- Specification-side count of unfocused→focused transitions. -/
def risingEdges (prev : Bool) : List Bool → ℕ
  | [] => 0
  | a :: rest => (if !prev && a then 1 else 0) + risingEdges a rest

/-! Section: InputDispatcher (`BotWorker._click_roi`, bot_worker.py lines
128-158)

The pyautogui calls are black boxes; their outcome for one invocation is an
explicit input.  The function below mirrors the control flow: focus guard
first (before any pointer movement), then the ROI lookup, then the
move/sleep/click protected by the two `except` arms. -/

inductive DispatchOutcome
  | ok
  | failSafe
  | otherError
  deriving DecidableEq

structure ClickResult where
  success : Bool
  moved : Bool
  stopRequested : Bool
  statusFailSafe : Bool
  statusClickFailed : Bool
  deriving DecidableEq

def click_roi (focusPasses rectKnown : Bool) (disp : DispatchOutcome) :
    ClickResult :=
  if !focusPasses then ⟨false, false, false, false, false⟩
  else if !rectKnown then ⟨false, false, false, false, false⟩
  else
    match disp with
    | .ok => ⟨true, true, false, false, false⟩
    | .failSafe => ⟨false, true, true, true, false⟩
    | .otherError => ⟨false, true, false, false, true⟩

/-! Section: Simple-mode CHECK_PRICE step (`BotWorker._simple_loop`,
bot_worker.py lines 293-310) -/

inductive BotState
  | idle
  | clickItem
  | checkPrice
  | outOfRangeClose
  | wait
  | inRangeExecute
  | postBuyCheck
  deriving DecidableEq

structure SimpleCycleState where
  state : BotState
  latest_price : Option ℚ
  latest_total_price : Option ℚ
  should_click_item : Bool
  deriving DecidableEq

/-- One execution of the `CHECK_PRICE` branch given the price sample the
read returned (`none` = read failed). -/
def checkPriceStep (max_price : ℚ) (st : SimpleCycleState)
    (sample : Option ℚ) : SimpleCycleState :=
  match sample with
  | none => { st with should_click_item := true, state := .clickItem }
  | some price =>
    { st with
      latest_price := some price
      latest_total_price := none
      state := if price > max_price then .outOfRangeClose else .inRangeExecute }

/-! Section: Bulk mode (`BotWorker._bulk_loop`, bot_worker.py lines 391-448)

One iteration's interaction with the environment: whether the confirm
click landed, the price the (retried) read resolved to, and whether the
buy click landed.  The loop body's decision structure is mirrored; sleeps
and the cursor pre-positioning have no observable effect here. -/

structure BulkEvent where
  confirmOk : Bool
  price : Option ℚ
  buyOk : Bool

def bulkTargetPrice (max_price buy_amount : ℚ) : ℚ :=
  max_price * max 1 buy_amount

inductive BulkIterResult
  | retry
  | bought (unit_price total : ℚ)
  deriving DecidableEq

/-- One iteration of the bulk loop: failed confirm click, unresolved price,
price above target, or failed buy click all continue the loop; a buy click
that lands buys at `unit_price = price / max 1 buy_amount`, spending
`price`. -/
def bulkIter (max_price buy_amount : ℚ) (e : BulkEvent) : BulkIterResult :=
  if !e.confirmOk then .retry
  else
    match e.price with
    | none => .retry
    | some price =>
      if price > bulkTargetPrice max_price buy_amount then .retry
      else if e.buyOk then .bought (price / max 1 buy_amount) price
      else .retry

/-- The whole bulk run over a finite trace of iteration events: the trades
recorded.  The loop `break`s after the first successful purchase. -/
def bulkRunTrades (max_price buy_amount : ℚ) : List BulkEvent → List (ℚ × ℚ)
  | [] => []
  | e :: es =>
    match bulkIter max_price buy_amount e with
    | .bought u t => [(u, t)]
    | .retry => bulkRunTrades max_price buy_amount es

/-! Section: Lemmas and claim theorems -/

lemma logTradeBalance_nonneg (b s : ℚ) : 0 ≤ logTradeBalance b s := by
  simp only [logTradeBalance]
  split_ifs with h
  · exact le_refl 0
  · linarith

lemma logTradeBalance_le (b s : ℚ) (hb : 0 ≤ b) (hs : 0 ≤ s) :
    logTradeBalance b s ≤ b := by
  simp only [logTradeBalance]
  split_ifs with h
  · exact hb
  · linarith

lemma balancesAfter_nonneg (b0 : ℚ) (spends : List ℚ) :
    ∀ b ∈ balancesAfter b0 spends, 0 ≤ b := by
  induction spends generalizing b0 with
  | nil => intro b hb; simp [balancesAfter] at hb
  | cons s ss ih =>
    intro b hb
    simp only [balancesAfter, List.mem_cons] at hb
    rcases hb with h | h
    · exact h ▸ logTradeBalance_nonneg b0 s
    · exact ih (logTradeBalance b0 s) b h

lemma balancesAfter_chain (b0 : ℚ) (spends : List ℚ)
    (hs : ∀ s ∈ spends, 0 ≤ s) :
    List.Chain' (fun a b => b ≤ a) (balancesAfter b0 spends) := by
  induction spends generalizing b0 with
  | nil => simp [balancesAfter]
  | cons s ss ih =>
    show List.Chain' (fun a b => b ≤ a)
      (logTradeBalance b0 s :: balancesAfter (logTradeBalance b0 s) ss)
    rw [List.chain'_cons']
    refine ⟨?_, ih (logTradeBalance b0 s)
      (fun u hu => hs u (List.mem_cons_of_mem _ hu))⟩
    intro b hb
    cases ss with
    | nil => simp [balancesAfter] at hb
    | cons t ts =>
      simp only [balancesAfter, List.head?_cons, Option.mem_def,
        Option.some.injEq] at hb
      subst hb
      exact logTradeBalance_le _ _ (logTradeBalance_nonneg b0 s)
        (hs t (by simp))

/-- C1: Every trade recording deducts the amount spent from the running
balance with a floor clamp at 0: the balance after each recording is
nonnegative, and when every amount spent is nonnegative the sequence of
post-recording balances is monotonically non-increasing. -/
theorem c1_balance_clamped_and_monotone (b0 : ℚ) (spends : List ℚ) :
    (∀ b ∈ balancesAfter b0 spends, 0 ≤ b) ∧
    ((∀ s ∈ spends, 0 ≤ s) →
      List.Chain' (fun a b => b ≤ a) (balancesAfter b0 spends)) :=
  ⟨balancesAfter_nonneg b0 spends, balancesAfter_chain b0 spends⟩

/-- Witness for C1: starting balance 10 with spends `[4, 7, 2]`, whose
cumulative spend exceeds the start. -/
theorem c1_witness :
    (∀ b ∈ balancesAfter 10 [4, 7, 2], 0 ≤ b) ∧
    List.Chain' (fun a b => b ≤ a) (balancesAfter 10 [4, 7, 2]) :=
  ⟨(c1_balance_clamped_and_monotone 10 [4, 7, 2]).1,
    (c1_balance_clamped_and_monotone 10 [4, 7, 2]).2 (by
      intro s hs
      simp only [List.mem_cons, List.not_mem_nil, or_false] at hs
      rcases hs with h | h | h <;> simp [h])⟩

lemma bulkRunTrades_length_le_one (m a : ℚ) (es : List BulkEvent) :
    (bulkRunTrades m a es).length ≤ 1 := by
  induction es with
  | nil => simp [bulkRunTrades]
  | cons e es ih =>
    simp only [bulkRunTrades]
    cases bulkIter m a e with
    | retry => exact ih
    | bought u t => simp

/-- C4: Bulk mode: `targetPrice = max_price * max 1 buy_amount`; a
resolved price strictly above target retries (the iteration records
nothing and the run continues); a price within target with a successful
buy click records one trade with `unit_price = price / max 1 buy_amount`
and amount spent `price`, and the run terminates (at most one trade per
run, and the remaining trace is discarded).  Concretely,
`max_price = 100, buy_amount = 50` gives target 5000; price 5200 cancels
and retries, price 4800 buys at unit price 96. -/
theorem c4_bulk_target_and_single_buy (m a : ℚ) (es : List BulkEvent)
    (e : BulkEvent) (p : ℚ) (hp : e.price = some p)
    (hc : e.confirmOk = true) :
    bulkTargetPrice m a = m * max 1 a ∧
    (p > bulkTargetPrice m a →
      bulkIter m a e = .retry ∧
      bulkRunTrades m a (e :: es) = bulkRunTrades m a es) ∧
    (¬ p > bulkTargetPrice m a → e.buyOk = true →
      bulkIter m a e = .bought (p / max 1 a) p ∧
      bulkRunTrades m a (e :: es) = [(p / max 1 a, p)]) ∧
    (bulkRunTrades m a es).length ≤ 1 ∧
    bulkTargetPrice 100 50 = 5000 ∧
    bulkIter 100 50 ⟨true, some 5200, true⟩ = .retry ∧
    bulkIter 100 50 ⟨true, some 4800, true⟩ = .bought 96 4800 := by
  have htgt : bulkTargetPrice 100 50 = 5000 := by
    norm_num [bulkTargetPrice]
  refine ⟨rfl, ?_, ?_, bulkRunTrades_length_le_one m a es, htgt, ?_, ?_⟩
  · intro hgt
    have hiter : bulkIter m a e = .retry := by
      simp [bulkIter, hc, hp, hgt]
    exact ⟨hiter, by simp [bulkRunTrades, hiter]⟩
  · intro hle hbuy
    have hiter : bulkIter m a e = .bought (p / max 1 a) p := by
      simp [bulkIter, hc, hp, hle, hbuy]
    exact ⟨hiter, by simp [bulkRunTrades, hiter]⟩
  · simp only [bulkIter, htgt]
    norm_num
  · simp only [bulkIter, htgt]
    norm_num

/-- Witness for C4: a single-event trace at `max_price = 100`,
`buy_amount = 50`, price 4800, buy click landing. -/
theorem c4_witness :
    bulkTargetPrice 100 50 = 100 * max 1 50 ∧
    ((4800 : ℚ) > bulkTargetPrice 100 50 →
      bulkIter 100 50 ⟨true, some 4800, true⟩ = .retry ∧
      bulkRunTrades 100 50 [⟨true, some 4800, true⟩] = bulkRunTrades 100 50 []) ∧
    (¬ (4800 : ℚ) > bulkTargetPrice 100 50 →
      (⟨true, some 4800, true⟩ : BulkEvent).buyOk = true →
      bulkIter 100 50 ⟨true, some 4800, true⟩ =
        .bought ((4800 : ℚ) / max 1 50) 4800 ∧
      bulkRunTrades 100 50 [⟨true, some 4800, true⟩] =
        [((4800 : ℚ) / max 1 50, 4800)]) ∧
    (bulkRunTrades 100 50 []).length ≤ 1 ∧
    bulkTargetPrice 100 50 = 5000 ∧
    bulkIter 100 50 ⟨true, some 5200, true⟩ = .retry ∧
    bulkIter 100 50 ⟨true, some 4800, true⟩ = .bought 96 4800 :=
  c4_bulk_target_and_single_buy 100 50 [] ⟨true, some 4800, true⟩ 4800 rfl rfl

/-- C5: The CHECK_PRICE branch: a successful sample stores the price,
clears the cached total price, and moves to OutOfRangeClose exactly when
`price > max_price` (so a price equal to `max_price` moves to
InRangeExecute); a failed sample sets the should-click-item flag and
returns to ClickItem. -/
theorem c5_check_price_transition (maxP : ℚ) (st : SimpleCycleState) :
    checkPriceStep maxP st none =
      { st with should_click_item := true, state := .clickItem } ∧
    ∀ p : ℚ,
      (checkPriceStep maxP st (some p)).latest_price = some p ∧
      (checkPriceStep maxP st (some p)).latest_total_price = none ∧
      (checkPriceStep maxP st (some p)).should_click_item =
        st.should_click_item ∧
      (p > maxP → (checkPriceStep maxP st (some p)).state = .outOfRangeClose) ∧
      (p ≤ maxP → (checkPriceStep maxP st (some p)).state = .inRangeExecute) := by
  refine ⟨rfl, fun p => ⟨rfl, rfl, rfl, ?_, ?_⟩⟩
  · intro h
    simp [checkPriceStep, h]
  · intro h
    simp [checkPriceStep, not_lt.mpr h]

/-- Witness for C5: `max_price = 100`; sample 150 goes out of range,
sample 80 (and the boundary sample 100) stay in range. -/
theorem c5_witness :
    (checkPriceStep 100 ⟨.checkPrice, none, none, false⟩ (some 150)).state =
      BotState.outOfRangeClose ∧
    (checkPriceStep 100 ⟨.checkPrice, none, none, false⟩ (some 80)).state =
      BotState.inRangeExecute ∧
    (checkPriceStep 100 ⟨.checkPrice, none, none, false⟩ (some 100)).state =
      BotState.inRangeExecute :=
  ⟨((c5_check_price_transition 100 ⟨.checkPrice, none, none, false⟩).2
      150).2.2.2.1 (by norm_num),
   ((c5_check_price_transition 100 ⟨.checkPrice, none, none, false⟩).2
      80).2.2.2.2 (by norm_num),
   ((c5_check_price_transition 100 ⟨.checkPrice, none, none, false⟩).2
      100).2.2.2.2 le_rfl⟩

/-- C6: `read_price_average` returns the arithmetic mean of the
successfully parsed values (`none` when no attempt parses) together with
one raw-text entry per attempt; concretely three attempts reading
`"500"`, `"500"` and unparsable text yield `(500, three raw strings)`. -/
theorem c6_average_of_samples (texts : List (List Char)) :
    (read_price_average texts).1 =
      meanOfList (texts.filterMap parse_numeric) ∧
    (read_price_average texts).2.length = texts.length ∧
    read_price_average ["500".toList, "500".toList, "K K".toList] =
      (some 500, ["500".toList, "500".toList, "K K".toList]) := by
  refine ⟨?_, ?_, ?_⟩
  · simp only [read_price_average, meanOfList]
    rcases h : texts.filterMap parse_numeric with _ | ⟨v, vs⟩ <;> simp [h]
  · simp only [read_price_average]
    rcases h : texts.filterMap parse_numeric with _ | ⟨v, vs⟩ <;> simp [h]
  · have h : List.filterMap parse_numeric
        ["500".toList, "500".toList, "K K".toList] = [500, 500] := by decide
    have hm : List.map pyStrip ["500".toList, "500".toList, "K K".toList] =
        ["500".toList, "500".toList, "K K".toList] := by decide
    simp only [read_price_average, h, hm]
    norm_num

lemma runGuard_unconfigured (w : Bool) (checks : List Bool) :
    (runGuard false w checks).1 = List.replicate checks.length true ∧
    (runGuard false w checks).2 = [] := by
  induction checks generalizing w with
  | nil => simp [runGuard]
  | cons a rest ih =>
    simp [runGuard, ensure_target_window, List.replicate_succ, ih w]

lemma runGuard_counts (checks : List Bool) : ∀ warn : Bool,
    ((runGuard true warn checks).2.count FocusStatus.waitingForTargetFocus =
      fallingEdges (!warn) checks) ∧
    ((runGuard true warn checks).2.count FocusStatus.targetFocusReady =
      risingEdges (!warn) checks) := by
  induction checks with
  | nil => intro warn; simp [runGuard, fallingEdges, risingEdges]
  | cons a rest ih =>
    intro warn
    cases a with
    | false =>
      have h := ih true
      simp only [Bool.not_true] at h
      obtain ⟨h1, h2⟩ := h
      cases warn <;>
        · simp [runGuard, ensure_target_window, fallingEdges, risingEdges,
            List.count_append, List.count_cons, h1, h2, Nat.add_comm]
    | true =>
      have h := ih false
      simp only [Bool.not_false] at h
      obtain ⟨h1, h2⟩ := h
      cases warn <;>
        · simp [runGuard, ensure_target_window, fallingEdges, risingEdges,
            List.count_append, List.count_cons, h1, h2, Nat.add_comm]

/-- C7: The focus warning is edge-triggered: across any sequence of
guard checks, the waiting status is emitted exactly once per
focused→unfocused transition and the ready status exactly once per
unfocused→focused transition (the run starts with no warning active);
target absent three times then present twice emits exactly one waiting
and one ready.  With no target configured, every check passes and nothing
is emitted. -/
theorem c7_focus_warning_edge_triggered (checks : List Bool) (w : Bool) :
    ((runGuard false w checks).1 = List.replicate checks.length true ∧
      (runGuard false w checks).2 = []) ∧
    ((runGuard true false checks).2.count FocusStatus.waitingForTargetFocus =
      fallingEdges true checks) ∧
    ((runGuard true false checks).2.count FocusStatus.targetFocusReady =
      risingEdges true checks) ∧
    (runGuard true false [false, false, false, true, true]).2 =
      [FocusStatus.waitingForTargetFocus, FocusStatus.targetFocusReady] := by
  refine ⟨runGuard_unconfigured w checks, ?_, ?_, by decide⟩
  · simpa using (runGuard_counts checks false).1
  · simpa using (runGuard_counts checks false).2

/-- C8: `_click_roi` is total (it returns a Boolean for every combination
of focus-guard result, ROI lookup and dispatch outcome) and classifies
outcomes: a failed focus guard returns false without moving the pointer; a
fail-safe trip sets the run's stop flag, emits the fail-safe status and
returns false; any other input-dispatch exception is caught, reported via
the click-failed status, and returns false; the click succeeds exactly when
the guard passes, the ROI is known and dispatch raised nothing. -/
theorem c8_click_roi_outcomes (focus rect : Bool) (disp : DispatchOutcome) :
    (focus = false →
      click_roi focus rect disp = ⟨false, false, false, false, false⟩) ∧
    (focus = true → rect = true → disp = .failSafe →
      click_roi focus rect disp = ⟨false, true, true, true, false⟩) ∧
    (focus = true → rect = true → disp = .otherError →
      click_roi focus rect disp = ⟨false, true, false, false, true⟩) ∧
    ((click_roi focus rect disp).success = true ↔
      focus = true ∧ rect = true ∧ disp = .ok) := by
  cases focus <;> cases rect <;> cases disp <;>
    simp [click_roi]

/-- Witness for C8: the fail-safe arm at concrete inputs. -/
theorem c8_witness :
    click_roi true true .failSafe = ⟨false, true, true, true, false⟩ :=
  (c8_click_roi_outcomes true true .failSafe).2.1 rfl rfl rfl

lemma firstRun_eq_none {p : Char → Bool} {l : List Char}
    (h : ∀ c ∈ l, p c = false) : firstRun p l = none := by
  induction l with
  | nil => rfl
  | cons c cs ih =>
    simp only [firstRun, h c (by simp)]
    exact ih fun d hd => h d (by simp [hd])

/-- C9: `parse_numeric` is total and never raises: an input with no
digit, dot, comma or apostrophe-like character parses to `none` (for
example `"K K K"`), and whenever the cleaned token fails the final numeric
conversion the parser returns `none` instead of propagating an
exception. -/
theorem c9_parse_total_none (text : List Char)
    (h : ∀ c ∈ text, isCandChar c = false) :
    parse_numeric text = none ∧
    parse_numeric "K K K".toList = none ∧
    (∀ t tok, extractToken t = some tok →
      floatOfToken (transformToken tok) = none → parse_numeric t = none) := by
  refine ⟨?_, by decide, ?_⟩
  · have hf : firstRun isCandChar (text.filter (fun c => !(isWsLike c))) = none :=
      firstRun_eq_none fun c hc => h c (List.mem_of_mem_filter hc)
    simp [parse_numeric, extractToken, hf]
  · intro t tok he hfo
    simp [parse_numeric, he, hfo]

/-- Witness for C9: the fully separator-free garbage input `"K K K"`. -/
theorem c9_witness :
    parse_numeric "K K K".toList = none :=
  (c9_parse_total_none "K K K".toList (by decide)).1

lemma pySplit_ne_nil (sep : Char) (l : List Char) : pySplit sep l ≠ [] := by
  cases l with
  | nil => simp [pySplit]
  | cons c cs =>
    simp only [pySplit]
    rcases h : pySplit sep cs with _ | ⟨p, ps⟩
    · simp
    · split_ifs <;> simp

lemma pySplit_length (sep : Char) (l : List Char) :
    (pySplit sep l).length = l.count sep + 1 := by
  induction l with
  | nil => simp [pySplit]
  | cons c cs ih =>
    rcases h : pySplit sep cs with _ | ⟨p, ps⟩
    · exact absurd h (pySplit_ne_nil sep cs)
    · rw [h] at ih
      simp only [List.length_cons] at ih
      by_cases hc : c = sep
      · subst hc
        simp [pySplit, h, List.count_cons_self]
        omega
      · simp [pySplit, h, if_neg hc,
          List.count_cons_of_ne (fun hh => hc hh.symm)]
        omega

lemma count_dot_map_comma (tok : List Char) (hnd : dot ∉ tok) :
    (tok.map (fun c => if c = comma then dot else c)).count dot =
      tok.count comma := by
  induction tok with
  | nil => simp
  | cons c cs ih =>
    have hnd' : dot ∉ cs := fun h => hnd (List.mem_cons_of_mem _ h)
    have hcd : c ≠ dot := fun h => hnd (h ▸ List.mem_cons_self c cs)
    by_cases hc : c = comma
    · subst hc
      simp [List.count_cons_self, ih hnd']
    · simp only [List.map_cons, if_neg hc]
      rw [List.count_cons_of_ne (fun hh => hcd hh.symm),
        List.count_cons_of_ne (fun hh => hc hh.symm)]
      exact ih hnd'

lemma sepJoin_cons (sep : Char) (g : List Char) (gs : List (List Char)) :
    sepJoin sep (g :: gs) = sep :: (g ++ sepJoin sep gs) := by
  simp [sepJoin]

lemma pySplit_join (sep : Char) (l : List Char) :
    ∀ p ps, pySplit sep l = p :: ps → l = p ++ sepJoin sep ps := by
  induction l with
  | nil =>
    intro p ps h
    simp only [pySplit, List.cons.injEq] at h
    simp [← h.1, ← h.2, sepJoin]
  | cons c cs ih =>
    intro p ps h
    rcases hq : pySplit sep cs with _ | ⟨q, qs⟩
    · exact absurd hq (pySplit_ne_nil sep cs)
    · rw [pySplit, hq] at h
      replace h : (if c = sep then [] :: q :: qs else (c :: q) :: qs) =
        p :: ps := h
      by_cases hc : c = sep
      · rw [if_pos hc] at h
        obtain ⟨hp, hps⟩ := List.cons_eq_cons.mp h
        subst hc hp
        rw [← hps, sepJoin_cons]
        simpa using ih q qs hq
      · rw [if_neg hc] at h
        obtain ⟨hp, hps⟩ := List.cons_eq_cons.mp h
        subst hps
        rw [← hp]
        simpa using ih q qs hq

lemma pySplit_of_sepFree (sep : Char) (l : List Char) (h : sep ∉ l) :
    pySplit sep l = [l] := by
  induction l with
  | nil => rfl
  | cons c cs ih =>
    have hc : c ≠ sep := fun hh => h (hh ▸ List.mem_cons_self c cs)
    have hcs : sep ∉ cs := fun hh => h (List.mem_cons_of_mem _ hh)
    simp only [pySplit, ih hcs]
    rw [if_neg hc]

lemma pySplit_append_sep (sep : Char) (a b : List Char) (ha : sep ∉ a) :
    pySplit sep (a ++ sep :: b) = a :: pySplit sep b := by
  induction a with
  | nil =>
    rcases hb : pySplit sep b with _ | ⟨p, ps⟩
    · exact absurd hb (pySplit_ne_nil sep b)
    · show pySplit sep (sep :: b) = [] :: p :: ps
      have step : pySplit sep (sep :: b) =
          match pySplit sep b with
          | [] => [[]]
          | q :: qs => if sep = sep then [] :: q :: qs else (sep :: q) :: qs :=
        rfl
      rw [step, hb]
      simp
  | cons c a ih =>
    have hc : c ≠ sep := fun hh => ha (hh ▸ List.mem_cons_self c a)
    have ha' : sep ∉ a := fun hh => ha (List.mem_cons_of_mem _ hh)
    have key := ih ha'
    rcases hb : pySplit sep b with _ | ⟨p, ps⟩
    · exact absurd hb (pySplit_ne_nil sep b)
    rw [hb] at key
    show pySplit sep (c :: (a ++ sep :: b)) = (c :: a) :: p :: ps
    have step : pySplit sep (c :: (a ++ sep :: b)) =
        match pySplit sep (a ++ sep :: b) with
        | [] => [[]]
        | q :: qs => if c = sep then [] :: q :: qs else (c :: q) :: qs := rfl
    rw [step, key]
    show (if c = sep then [] :: a :: p :: ps else (c :: a) :: p :: ps) =
      (c :: a) :: p :: ps
    rw [if_neg hc]

lemma pySplit_sepJoin (sep : Char) (gs : List (List Char)) :
    ∀ p : List Char, (∀ g ∈ gs, sep ∉ g) → sep ∉ p →
      pySplit sep (p ++ sepJoin sep gs) = p :: gs := by
  induction gs with
  | nil =>
    intro p _ hp
    simp only [sepJoin, List.map_nil, List.flatten_nil, List.append_nil]
    exact pySplit_of_sepFree sep p hp
  | cons g gs ih =>
    intro p hgs hp
    rw [sepJoin_cons, pySplit_append_sep sep p _ hp,
      ih g (fun x hx => hgs x (List.mem_cons_of_mem _ hx))
        (hgs g (List.mem_cons_self _ _))]

lemma forall_of_dropLast_getLast {α : Type} (P : α → Prop) (L : List α)
    (h : L ≠ []) :
    (P (L.getLast h) ∧ ∀ x ∈ L.dropLast, P x) ↔ ∀ x ∈ L, P x := by
  constructor
  · rintro ⟨hl, hd⟩ x hx
    rw [← List.dropLast_append_getLast h] at hx
    rcases List.mem_append.mp hx with h1 | h2
    · exact hd x h1
    · simp only [List.mem_singleton] at h2
      exact h2 ▸ hl
  · intro hall
    exact ⟨hall _ (List.getLast_mem h),
      fun x hx => hall x (List.dropLast_subset L hx)⟩

lemma looks_like_thousands_iff_parts (token : List Char) (sep : Char) :
    looks_like_thousands token sep = true ↔
      ∃ p ps, pySplit sep token = p :: ps ∧ ps ≠ [] ∧ isdigitStr p = true ∧
        ∀ g ∈ ps, isdigitStr g = true ∧ g.length = 3 := by
  rcases hsplit : pySplit sep token with _ | ⟨p, ps⟩
  · exact absurd hsplit (pySplit_ne_nil sep token)
  rcases ps with _ | ⟨r, rs⟩
  · rw [looks_like_thousands, hsplit]
    constructor
    · intro h
      exact absurd h (by simp)
    · rintro ⟨p', ps', hs, hne, -⟩
      obtain ⟨-, hps⟩ := List.cons_eq_cons.mp hs
      exact absurd hps.symm hne
  · rw [looks_like_thousands, hsplit]
    have hiff := forall_of_dropLast_getLast
      (fun g => isdigitStr g = true ∧ g.length = 3) (r :: rs) (by simp)
    simp only [Bool.and_eq_true, List.all_eq_true, beq_iff_eq]
    constructor
    · rintro ⟨⟨⟨hlast1, hlast2⟩, hmids⟩, hp0⟩
      exact ⟨p, r :: rs, rfl, by simp, hp0, hiff.mp ⟨⟨hlast1, hlast2⟩, hmids⟩⟩
    · rintro ⟨p', ps', hs, -, hp0, hall⟩
      obtain ⟨hp, hps⟩ := List.cons_eq_cons.mp hs
      subst hp
      rw [← hps] at hall
      obtain ⟨hl, hmids⟩ := hiff.mpr hall
      exact ⟨⟨hl, hmids⟩, hp0⟩

lemma isdigitStr_iff (s : List Char) :
    isdigitStr s = true ↔ s ≠ [] ∧ ∀ c ∈ s, c.isDigit = true := by
  simp [isdigitStr, List.all_eq_true, List.isEmpty_iff]

lemma not_mem_of_all_digit {s : List Char} {sep : Char}
    (hs : ∀ c ∈ s, c.isDigit = true) (hsep : sep.isDigit = false) :
    sep ∉ s :=
  fun hmem => by simp [hs sep hmem] at hsep

/-- The source's grouped-digits test agrees with the specification's
grouped-digits shape, for any non-digit separator character. -/
lemma looks_like_thousands_iff_grouped (token : List Char) (sep : Char)
    (hsep : sep.isDigit = false) :
    looks_like_thousands token sep = true ↔ GroupedShape token sep := by
  rw [looks_like_thousands_iff_parts]
  constructor
  · rintro ⟨p, ps, hsplit, hne, hp, hall⟩
    obtain ⟨hpne, hpdig⟩ := (isdigitStr_iff p).mp hp
    refine ⟨p, ps, pySplit_join sep token p ps hsplit, hpne, ?_, hne, ?_⟩
    · exact List.all_eq_true.mpr hpdig
    · intro g hg
      obtain ⟨hgd, hglen⟩ := hall g hg
      exact ⟨hglen, List.all_eq_true.mpr ((isdigitStr_iff g).mp hgd).2⟩
  · rintro ⟨lead, gs, htok, hlead_ne, hlead_dig, hgs_ne, hgs⟩
    have hlead_dig' : ∀ c ∈ lead, c.isDigit = true :=
      List.all_eq_true.mp hlead_dig
    have hsplit : pySplit sep token = lead :: gs := by
      rw [htok]
      exact pySplit_sepJoin sep gs lead
        (fun g hg => not_mem_of_all_digit
          (List.all_eq_true.mp (hgs g hg).2) hsep)
        (not_mem_of_all_digit hlead_dig' hsep)
    refine ⟨lead, gs, hsplit, hgs_ne,
      (isdigitStr_iff lead).mpr ⟨hlead_ne, hlead_dig'⟩, ?_⟩
    intro g hg
    obtain ⟨hglen, hgdig⟩ := hgs g hg
    refine ⟨(isdigitStr_iff g).mpr ⟨?_, List.all_eq_true.mp hgdig⟩, hglen⟩
    intro hgnil
    rw [hgnil] at hglen
    simp at hglen

/-- The source's 1–2-digit-tail regex test agrees with the specification's
short decimal tail condition, for any non-digit separator character. -/
lemma has_decimal_sep_iff_short_tail (token : List Char) (sep : Char)
    (hsep : sep.isDigit = false) :
    has_decimal_sep token sep = true ↔ ShortDecimalTail token sep := by
  constructor
  · intro h
    rcases hr : token.reverse with _ | ⟨d1, _ | ⟨c2, rest⟩⟩ <;>
      rw [has_decimal_sep, hr] at h
    · exact absurd h (by simp)
    · exact absurd h (by simp)
    have htok : token = rest.reverse ++ [c2, d1] := by
      have := congrArg List.reverse hr
      rw [List.reverse_reverse] at this
      simpa using this
    rcases rest with _ | ⟨c3, rest'⟩
    · replace h : (if (!d1.isDigit) = true then false
          else if c2 = sep then true else false) = true := h
      by_cases hd1 : d1.isDigit = true
      swap
      · rw [if_pos (by simp [Bool.not_eq_true] at hd1 ⊢; exact hd1)] at h
        exact absurd h (by simp)
      rw [if_neg (by simp [hd1])] at h
      by_cases hc2 : c2 = sep
      · subst hc2
        exact ⟨[], [d1], by simpa using htok, by simp, by simp, by simp [hd1]⟩
      · rw [if_neg hc2] at h
        exact absurd h (by simp)
    · replace h : (if (!d1.isDigit) = true then false
          else if c2 = sep then true
          else c2.isDigit && decide (c3 = sep)) = true := h
      by_cases hd1 : d1.isDigit = true
      swap
      · rw [if_pos (by simp [Bool.not_eq_true] at hd1 ⊢; exact hd1)] at h
        exact absurd h (by simp)
      rw [if_neg (by simp [hd1])] at h
      by_cases hc2 : c2 = sep
      · subst hc2
        exact ⟨(c3 :: rest').reverse, [d1], by simpa using htok, by simp,
          by simp, by simp [hd1]⟩
      · rw [if_neg hc2] at h
        simp only [Bool.and_eq_true, decide_eq_true_eq] at h
        obtain ⟨hc2d, hc3⟩ := h
        subst hc3
        refine ⟨rest'.reverse, [c2, d1], ?_, by simp, by simp,
          by simp [hd1, hc2d]⟩
        rw [htok]
        simp
  · rintro ⟨pre, d, htok, hne, hlen, hdig⟩
    rcases d with _ | ⟨x, _ | ⟨y, _ | ⟨z, zs⟩⟩⟩
    · exact absurd rfl hne
    · have hx : x.isDigit = true := by
        have := List.all_eq_true.mp hdig
        simpa using this x (by simp)
      have hrev : token.reverse = x :: sep :: pre.reverse := by
        rw [htok]; simp
      rw [has_decimal_sep, hrev]
      show (if (!x.isDigit) = true then false
        else if sep = sep then true
        else match pre.reverse with
          | c3 :: _ => sep.isDigit && decide (c3 = sep)
          | [] => false) = true
      rw [if_neg (by simp [hx]), if_pos rfl]
    · have hall := List.all_eq_true.mp hdig
      have hx : x.isDigit = true := by simpa using hall x (by simp)
      have hy : y.isDigit = true := by simpa using hall y (by simp)
      have hrev : token.reverse = y :: x :: sep :: pre.reverse := by
        rw [htok]; simp
      have hxsep : x ≠ sep := fun hh => by
        rw [hh] at hx
        simp [hx] at hsep
      rw [has_decimal_sep, hrev]
      show (if (!y.isDigit) = true then false
        else if x = sep then true
        else match sep :: pre.reverse with
          | c3 :: _ => x.isDigit && decide (c3 = sep)
          | [] => false) = true
      rw [if_neg (by simp [hy]), if_neg hxsep]
      simp [hx]
    · simp at hlen

lemma indexOf_lt_iff_first (r : List Char) (x y : Char) (hxy : x ≠ y)
    (hx : x ∈ r) :
    r.indexOf x < r.indexOf y ↔ ∃ a b, r = a ++ x :: b ∧ y ∉ a := by
  induction r with
  | nil => simp at hx
  | cons c cs ih =>
    by_cases hcx : c = x
    · subst hcx
      rw [List.indexOf_cons_self]
      constructor
      · intro _
        exact ⟨[], cs, rfl, by simp⟩
      · intro _
        rw [List.indexOf_cons_ne cs hxy]
        exact Nat.succ_pos _
    · by_cases hcy : c = y
      · subst hcy
        rw [List.indexOf_cons_self]
        constructor
        · intro hlt
          exact absurd hlt (by simp)
        · rintro ⟨a, b, hab, hymem⟩
          rcases a with _ | ⟨a0, a'⟩
          · obtain ⟨h1, -⟩ := List.cons_eq_cons.mp hab
            exact absurd h1 hcx
          · obtain ⟨h1, -⟩ := List.cons_eq_cons.mp hab
            exact absurd (h1 ▸ List.mem_cons_self a0 a') hymem
      · have hx' : x ∈ cs := by
          rcases List.mem_cons.mp hx with h | h
          · exact absurd h.symm hcx
          · exact h
        rw [List.indexOf_cons_ne cs hcx, List.indexOf_cons_ne cs hcy,
          Nat.succ_lt_succ_iff]
        rw [ih hx']
        constructor
        · rintro ⟨a, b, hab, hymem⟩
          refine ⟨c :: a, b, by rw [hab, List.cons_append], ?_⟩
          simp only [List.mem_cons, not_or]
          exact ⟨fun hh => hcy hh.symm, hymem⟩
        · rintro ⟨a, b, hab, hymem⟩
          rcases a with _ | ⟨a0, a'⟩
          · obtain ⟨h1, -⟩ := List.cons_eq_cons.mp hab
            exact absurd h1 hcx
          · obtain ⟨h1, h2⟩ := List.cons_eq_cons.mp hab
            exact ⟨a', b, h2, fun hm => hymem (List.mem_cons_of_mem _ hm)⟩

/-- The source's `rfind` comparison on the reversed token matches the
specification's "the one appearing last in the string" condition. -/
lemma indexOf_reverse_iff_last_separator (token : List Char) (x y : Char)
    (hxy : x ≠ y) (hx : x ∈ token) :
    token.reverse.indexOf x < token.reverse.indexOf y ↔
      LastSeparator token x y := by
  rw [indexOf_lt_iff_first token.reverse x y hxy (by simpa using hx)]
  constructor
  · rintro ⟨a, b, hab, hymem⟩
    refine ⟨b.reverse, a.reverse, ?_, by simpa using hymem⟩
    have := congrArg List.reverse hab
    rw [List.reverse_reverse] at this
    simpa using this
  · rintro ⟨pre, suf, htok, hymem⟩
    refine ⟨suf.reverse, pre.reverse, by rw [htok]; simp,
      by simpa using hymem⟩

/-- C2: Separator disambiguation: with both `,` and `.` present, the one
appearing last in the token is the decimal separator and the other the
thousands separator; with a single separator present, it is the thousands
separator when the token matches the grouped-digits shape, else the decimal
separator when exactly 1–2 digits follow it at the token's end, else the
thousands separator by default.  In particular `parse("1234,5") = 1234.5`
and `parse("1,234") = 1234`. -/
theorem c2_separator_disambiguation :
    (∀ token : List Char, comma ∈ token → dot ∈ token →
      (LastSeparator token comma dot →
        decideSeps token = (some comma, some dot)) ∧
      (LastSeparator token dot comma →
        decideSeps token = (some dot, some comma))) ∧
    (∀ token : List Char, comma ∈ token → dot ∉ token →
      (GroupedShape token comma → decideSeps token = (none, some comma)) ∧
      (¬ GroupedShape token comma → ShortDecimalTail token comma →
        decideSeps token = (some comma, none)) ∧
      (¬ GroupedShape token comma → ¬ ShortDecimalTail token comma →
        decideSeps token = (none, some comma))) ∧
    (∀ token : List Char, dot ∈ token → comma ∉ token →
      (GroupedShape token dot → decideSeps token = (none, some dot)) ∧
      (¬ GroupedShape token dot → ShortDecimalTail token dot →
        decideSeps token = (some dot, none)) ∧
      (¬ GroupedShape token dot → ¬ ShortDecimalTail token dot →
        decideSeps token = (none, some dot))) ∧
    parse_numeric "1234,5".toList = some (1234.5 : ℚ) ∧
    parse_numeric "1,234".toList = some 1234 := by
  refine ⟨?_, ?_, ?_, ?_, ?_⟩
  · intro token hc hd
    constructor
    · intro hlast
      have hlt : token.reverse.indexOf comma < token.reverse.indexOf dot :=
        (indexOf_reverse_iff_last_separator token comma dot (by decide)
          hc).mpr hlast
      rw [decideSeps, if_pos ⟨hc, hd⟩, if_pos hlt]
    · intro hlast
      have hlt : token.reverse.indexOf dot < token.reverse.indexOf comma :=
        (indexOf_reverse_iff_last_separator token dot comma (by decide)
          hd).mpr hlast
      rw [decideSeps, if_pos ⟨hc, hd⟩, if_neg (by omega)]
  · intro token hc hd
    have hboth : ¬(comma ∈ token ∧ dot ∈ token) := fun hh => hd hh.2
    refine ⟨?_, ?_, ?_⟩
    · intro hg
      have hl : looks_like_thousands token comma = true :=
        (looks_like_thousands_iff_grouped token comma (by decide)).mpr hg
      rw [decideSeps, if_neg hboth, if_pos hc, if_pos hl]
    · intro hng hs
      have hl : ¬ looks_like_thousands token comma = true :=
        fun hh =>
          hng ((looks_like_thousands_iff_grouped token comma (by decide)).mp hh)
      have hsd : has_decimal_sep token comma = true :=
        (has_decimal_sep_iff_short_tail token comma (by decide)).mpr hs
      rw [decideSeps, if_neg hboth, if_pos hc, if_neg hl, if_pos hsd]
    · intro hng hns
      have hl : ¬ looks_like_thousands token comma = true :=
        fun hh =>
          hng ((looks_like_thousands_iff_grouped token comma (by decide)).mp hh)
      have hsd : ¬ has_decimal_sep token comma = true :=
        fun hh =>
          hns ((has_decimal_sep_iff_short_tail token comma (by decide)).mp hh)
      rw [decideSeps, if_neg hboth, if_pos hc, if_neg hl, if_neg hsd]
  · intro token hd hc
    have hboth : ¬(comma ∈ token ∧ dot ∈ token) := fun hh => hc hh.1
    refine ⟨?_, ?_, ?_⟩
    · intro hg
      have hl : looks_like_thousands token dot = true :=
        (looks_like_thousands_iff_grouped token dot (by decide)).mpr hg
      rw [decideSeps, if_neg hboth, if_neg hc, if_pos hd, if_pos hl]
    · intro hng hs
      have hl : ¬ looks_like_thousands token dot = true :=
        fun hh =>
          hng ((looks_like_thousands_iff_grouped token dot (by decide)).mp hh)
      have hsd : has_decimal_sep token dot = true :=
        (has_decimal_sep_iff_short_tail token dot (by decide)).mpr hs
      rw [decideSeps, if_neg hboth, if_neg hc, if_pos hd, if_neg hl, if_pos hsd]
    · intro hng hns
      have hl : ¬ looks_like_thousands token dot = true :=
        fun hh =>
          hng ((looks_like_thousands_iff_grouped token dot (by decide)).mp hh)
      have hsd : ¬ has_decimal_sep token dot = true :=
        fun hh =>
          hns ((has_decimal_sep_iff_short_tail token dot (by decide)).mp hh)
      rw [decideSeps, if_neg hboth, if_neg hc, if_pos hd, if_neg hl, if_neg hsd]
  · have h1 : extractToken "1234,5".toList = some "1234,5".toList := by decide
    have h2 : transformToken "1234,5".toList = "1234.5".toList := by decide
    have h3 : pySplit dot "1234.5".toList = ["1234".toList, "5".toList] := by
      decide
    have hip : natValBE "1234".toList = 1234 := by decide
    have hfp : natValBE "5".toList = 5 := by decide
    have h4 : floatOfToken "1234.5".toList = some (1234.5 : ℚ) := by
      rw [floatOfToken, h3]
      show (if (("1234".toList.all Char.isDigit && "5".toList.all Char.isDigit)
          && !("1234".toList.isEmpty && "5".toList.isEmpty))
        then some ((natValBE "1234".toList : ℚ) +
          (natValBE "5".toList : ℚ) / (10 : ℚ) ^ "5".toList.length)
        else none) = some (1234.5 : ℚ)
      rw [if_pos (by decide), hip, hfp]
      norm_num
    rw [parse_numeric, h1]
    show floatOfToken (transformToken "1234,5".toList) = some (1234.5 : ℚ)
    rw [h2, h4]
  · have h1 : extractToken "1,234".toList = some "1,234".toList := by decide
    have h2 : transformToken "1,234".toList = "1234".toList := by decide
    have h3 : pySplit dot "1234".toList = ["1234".toList] := by decide
    have hip : natValBE "1234".toList = 1234 := by decide
    have h4 : floatOfToken "1234".toList = some (1234 : ℚ) := by
      rw [floatOfToken, h3]
      show (if isdigitStr "1234".toList then some ((natValBE "1234".toList : ℚ))
        else none) = some (1234 : ℚ)
      rw [if_pos (by decide), hip]
      norm_num
    rw [parse_numeric, h1]
    show floatOfToken (transformToken "1,234".toList) = some (1234 : ℚ)
    rw [h2, h4]

/-- Witness for C2: the single-separator grouped token `"1,234"` classified
as thousands-separated. -/
theorem c2_witness :
    decideSeps "1,234".toList = (none, some comma) :=
  (c2_separator_disambiguation.2.1 "1,234".toList (by decide) (by decide)).1
    ⟨"1".toList, ["234".toList], by decide, by decide, by decide, by decide,
      by decide⟩

lemma digitChar_isDigit {d : ℕ} (hd : d < 10) :
    (Char.ofNat (48 + d)).isDigit = true := by
  interval_cases d <;> decide

lemma digitChar_toNat {d : ℕ} (hd : d < 10) :
    (Char.ofNat (48 + d)).toNat = 48 + d := by
  interval_cases d <;> decide

lemma natValBE_append_one (l : List Char) (c : Char) :
    natValBE (l ++ [c]) = 10 * natValBE l + (c.toNat - 48) := by
  simp [natValBE, List.foldl_append]

lemma natValBE_digitsLE (ds : List ℕ) (hds : ∀ d ∈ ds, d < 10) :
    natValBE ((ds.map (fun d => Char.ofNat (48 + d))).reverse) =
      Nat.ofDigits 10 ds := by
  induction ds with
  | nil => simp [natValBE, Nat.ofDigits_nil]
  | cons d ds ih =>
    simp only [List.map_cons, List.reverse_cons]
    rw [natValBE_append_one, ih (fun x hx => hds x (List.mem_cons_of_mem _ hx)),
      digitChar_toNat (hds d (by simp)), Nat.ofDigits_cons]
    omega

lemma natValBE_natStr (n : ℕ) : natValBE (natStr n) = n := by
  by_cases h : n = 0
  · subst h
    decide
  · rw [natStr, if_neg h, natDigitsLE,
      natValBE_digitsLE _ (fun d hd => Nat.digits_lt_base (by norm_num) hd)]
    exact Nat.ofDigits_digits 10 n

lemma natStr_ne_nil (n : ℕ) : natStr n ≠ [] := by
  rw [natStr]
  split_ifs with h
  · simp
  · simpa [natDigitsLE] using Nat.digits_ne_nil_iff_ne_zero.mpr h

lemma natStr_all_digit (n : ℕ) : ∀ c ∈ natStr n, c.isDigit = true := by
  intro c hc
  rw [natStr] at hc
  split_ifs at hc with h
  · simp only [List.mem_singleton] at hc
    subst hc
    decide
  · simp only [natDigitsLE, List.mem_reverse, List.mem_map] at hc
    obtain ⟨d, hd, rfl⟩ := hc
    exact digitChar_isDigit (Nat.digits_lt_base (by norm_num) hd)

lemma group3BE_spec_aux (N : ℕ) : ∀ D : List Char, D.length ≤ N → D ≠ [] →
    ∃ g0 gs, group3BE D = g0 :: gs ∧ g0 ≠ [] ∧
      (∀ g ∈ gs, g.length = 3) ∧ g0 ++ gs.flatten = D ∧
      (3 < D.length → gs ≠ []) := by
  induction N with
  | zero =>
    intro D hD hne
    rw [List.length_eq_zero.mp (Nat.le_zero.mp hD)] at hne
    exact absurd rfl hne
  | succ N ih =>
    intro D hD hne
    by_cases h3 : D.length ≤ 3
    · refine ⟨D, [], by rw [group3BE, dif_pos h3], hne, by simp, by simp, ?_⟩
      intro hlen
      omega
    · push_neg at h3
      have hkpos : 1 ≤ D.length - 3 := by omega
      have htake_len : (D.take (D.length - 3)).length = D.length - 3 := by
        simp only [List.length_take]
        omega
      have htake_ne : D.take (D.length - 3) ≠ [] := by
        intro hh
        rw [hh] at htake_len
        simp at htake_len
        omega
      obtain ⟨g0, gs, hrec, hg0ne, hgs3, hjoin, -⟩ :=
        ih (D.take (D.length - 3)) (by omega) htake_ne
      refine ⟨g0, gs ++ [D.drop (D.length - 3)], ?_, hg0ne, ?_, ?_, ?_⟩
      · rw [group3BE, dif_neg (by omega), hrec]
        simp
      · intro g hg
        rcases List.mem_append.mp hg with hg | hg
        · exact hgs3 g hg
        · simp only [List.mem_singleton] at hg
          subst hg
          simp only [List.length_drop]
          omega
      · rw [List.flatten_append]
        simp only [List.flatten_cons, List.flatten_nil, List.append_nil]
        rw [← List.append_assoc, hjoin, List.take_append_drop]
      · intro _
        simp

lemma group3BE_spec (D : List Char) (hne : D ≠ []) :
    ∃ g0 gs, group3BE D = g0 :: gs ∧ g0 ≠ [] ∧
      (∀ g ∈ gs, g.length = 3) ∧ g0 ++ gs.flatten = D ∧
      (3 < D.length → gs ≠ []) :=
  group3BE_spec_aux D.length D le_rfl hne

lemma filter_sepJoin_eq_flatten (sep : Char) (gs : List (List Char))
    (h : ∀ g ∈ gs, sep ∉ g) :
    (sepJoin sep gs).filter (fun c => !(c = sep)) = gs.flatten := by
  induction gs with
  | nil => simp [sepJoin]
  | cons g gs ih =>
    rw [sepJoin_cons]
    show List.filter _ (sep :: (g ++ sepJoin sep gs)) = _
    rw [List.filter_cons_of_neg (by simp), List.filter_append,
      ih (fun x hx => h x (List.mem_cons_of_mem _ hx)),
      List.filter_eq_self.mpr (fun c hc => by
        simp only [Bool.not_eq_true']
        exact decide_eq_false
          (fun hh => h g (List.mem_cons_self _ _) (hh ▸ hc)))]
    simp

lemma firstRun_of_all (p : Char → Bool) (l : List Char) (hne : l ≠ [])
    (hall : ∀ c ∈ l, p c = true) : firstRun p l = some l := by
  cases l with
  | nil => exact absurd rfl hne
  | cons c cs =>
    rw [firstRun, if_pos (hall c (List.mem_cons_self c cs)),
      List.takeWhile_eq_self_iff.mpr
        (fun x hx => hall x (List.mem_cons_of_mem _ hx))]

lemma isWsLike_false_of_not_ws {c : Char}
    (h : c.isDigit = true ∨ c = comma ∨ c = dot) : isWsLike c = false := by
  rcases h with h | h | h
  · cases hws : isWsLike c
    · rfl
    · exfalso
      simp only [isWsLike, Bool.or_eq_true, decide_eq_true_eq] at hws
      rcases hws with ((((h1 | h1) | h1) | h1) | h1) | h1 <;> subst h1 <;>
        exact absurd h (by decide)
  · subst h; decide
  · subst h; decide

lemma isCandChar_true_of {c : Char}
    (h : c.isDigit = true ∨ c = comma ∨ c = dot) : isCandChar c = true := by
  rcases h with h | h | h
  · simp [isCandChar, h]
  · subst h; decide
  · subst h; decide

lemma not_apos_of {c : Char} (h : c.isDigit = true ∨ c = comma ∨ c = dot) :
    (!(c = apos || c = rsquo)) = true := by
  rcases h with h | h | h
  · simp only [Bool.not_eq_true', Bool.or_eq_false_iff]
    constructor <;> apply decide_eq_false <;> intro hh <;> subst hh <;>
      exact absurd h (by decide)
  · subst h; decide
  · subst h; decide

lemma extractToken_of_clean (l : List Char) (hne : l ≠ [])
    (hall : ∀ c ∈ l, c.isDigit = true ∨ c = comma ∨ c = dot) :
    extractToken l = some l := by
  have hfilter : l.filter (fun c => !(isWsLike c)) = l :=
    List.filter_eq_self.mpr (fun c hc => by
      simp [isWsLike_false_of_not_ws (hall c hc)])
  rw [extractToken]
  show (match firstRun isCandChar (l.filter fun c => !(isWsLike c)) with
    | none => none
    | some t => some (t.filter (fun c => !(c = apos || c = rsquo)))) = some l
  rw [hfilter, firstRun_of_all isCandChar l hne
    (fun c hc => isCandChar_true_of (hall c hc))]
  show some (l.filter (fun c => !(c = apos || c = rsquo))) = some l
  rw [List.filter_eq_self.mpr (fun c hc => not_apos_of (hall c hc))]

lemma floatOfToken_natStr (n : ℕ) : floatOfToken (natStr n) = some (n : ℚ) := by
  have hsplitD : pySplit dot (natStr n) = [natStr n] :=
    pySplit_of_sepFree dot _ (not_mem_of_all_digit (natStr_all_digit n)
      (by decide))
  rw [floatOfToken, hsplitD]
  show (if isdigitStr (natStr n) then some ((natValBE (natStr n) : ℕ) : ℚ)
    else none) = some (n : ℚ)
  rw [if_pos ((isdigitStr_iff _).mpr ⟨natStr_ne_nil n, natStr_all_digit n⟩),
    natValBE_natStr]

lemma digit_not_comma_dot {c : Char} (h : c.isDigit = true) :
    (!(c = comma) && !(c = dot)) = true := by
  have h1 : c ≠ comma := fun hh => by
    rw [hh] at h
    exact absurd h (by decide)
  have h2 : c ≠ dot := fun hh => by
    rw [hh] at h
    exact absurd h (by decide)
  simp [h1, h2]

lemma digit_not_sep {c sep : Char} (h : c.isDigit = true)
    (hs : sep.isDigit = false) : (!(c = sep)) = true := by
  simp only [Bool.not_eq_true']
  refine decide_eq_false (fun hh => ?_)
  rw [hh, hs] at h
  exact Bool.false_ne_true h

/-- C3: Round-trip: formatting any natural number with 3-digit grouping
using a single thousands separator (comma or dot) and parsing the result
recovers exactly that number. -/
theorem c3_format_roundtrip (n : ℕ) (sep : Char)
    (hsep : sep = comma ∨ sep = dot) :
    parse_numeric (format3 n sep) = some (n : ℚ) := by
  have hD_ne := natStr_ne_nil n
  have hD_dig := natStr_all_digit n
  obtain ⟨g0, gs, hgrp, hg0ne, hgs3, hjoin, -⟩ :=
    group3BE_spec (natStr n) hD_ne
  have hfmt : format3 n sep = g0 ++ sepJoin sep gs := by
    rw [format3, hgrp]
  have hg0dig : ∀ c ∈ g0, c.isDigit = true := fun c hc =>
    hD_dig c (hjoin ▸ List.mem_append_left _ hc)
  have hgsdig : ∀ g ∈ gs, ∀ c ∈ g, c.isDigit = true := fun g hg c hc =>
    hD_dig c (hjoin ▸ List.mem_append_right _
      (List.mem_flatten.mpr ⟨g, hg, hc⟩))
  have hsepd : sep.isDigit = false := by
    rcases hsep with h | h <;> subst h <;> decide
  have hallF : ∀ c ∈ format3 n sep, c.isDigit = true ∨ c = sep := by
    intro c hc
    rw [hfmt] at hc
    rcases List.mem_append.mp hc with hc | hc
    · exact Or.inl (hg0dig c hc)
    · simp only [sepJoin, List.mem_flatten, List.mem_map] at hc
      obtain ⟨x, ⟨g, hg, rfl⟩, hcx⟩ := hc
      rcases List.mem_cons.mp hcx with h | h
      · exact Or.inr h
      · exact Or.inl (hgsdig g hg c h)
  have hallF3 : ∀ c ∈ format3 n sep, c.isDigit = true ∨ c = comma ∨ c = dot := by
    intro c hc
    rcases hallF c hc with h | h
    · exact Or.inl h
    · subst h
      rcases hsep with h | h
      · exact Or.inr (Or.inl h)
      · exact Or.inr (Or.inr h)
  have hFne : format3 n sep ≠ [] := by
    rw [hfmt]
    intro hh
    exact hg0ne (List.append_eq_nil.mp hh).1
  have hext : extractToken (format3 n sep) = some (format3 n sep) :=
    extractToken_of_clean _ hFne hallF3
  rw [parse_numeric, hext]
  show floatOfToken (transformToken (format3 n sep)) = some (n : ℚ)
  rcases gs with _ | ⟨g1, gs'⟩
  · have hfmt0 : format3 n sep = natStr n := by
      rw [hfmt]
      simp only [sepJoin, List.map_nil, List.flatten_nil, List.append_nil]
      simpa using hjoin
    have hnc : comma ∉ format3 n sep := by
      rw [hfmt0]
      exact not_mem_of_all_digit hD_dig (by decide)
    have hnd : dot ∉ format3 n sep := by
      rw [hfmt0]
      exact not_mem_of_all_digit hD_dig (by decide)
    have hds : decideSeps (format3 n sep) = (none, none) := by
      rw [decideSeps, if_neg (fun hh => hnc hh.1), if_neg hnc, if_neg hnd]
    have htr : transformToken (format3 n sep) = format3 n sep := by
      simp only [transformToken, hds]
      exact List.filter_eq_self.mpr (fun c hc => by
        rw [hfmt0] at hc
        exact digit_not_comma_dot (hD_dig c hc))
    rw [htr, hfmt0, floatOfToken_natStr]
  · have hsep_mem : sep ∈ format3 n sep := by
      rw [hfmt, sepJoin_cons]
      simp
    have hgrouped : GroupedShape (format3 n sep) sep :=
      ⟨g0, g1 :: gs', hfmt, hg0ne, List.all_eq_true.mpr hg0dig, by simp,
        fun g hg => ⟨hgs3 g hg, List.all_eq_true.mpr (hgsdig g hg)⟩⟩
    have hlooks : looks_like_thousands (format3 n sep) sep = true :=
      (looks_like_thousands_iff_grouped _ sep hsepd).mpr hgrouped
    have hother : ∀ c ∈ format3 n sep, c ≠ sep → c.isDigit = true :=
      fun c hc hcs => (hallF c hc).resolve_right hcs
    have hfilter_result :
        (format3 n sep).filter (fun c => !(c = sep)) = natStr n := by
      rw [hfmt, List.filter_append,
        List.filter_eq_self.mpr
          (fun c hc => digit_not_sep (hg0dig c hc) hsepd),
        filter_sepJoin_eq_flatten sep _
          (fun g hg => not_mem_of_all_digit (hgsdig g hg) hsepd),
        hjoin]
    rcases hsep with hsep' | hsep' <;> subst hsep'
    · have hnd : dot ∉ format3 n comma := fun hh =>
        absurd (hother dot hh (by decide)) (by decide)
      have hds : decideSeps (format3 n comma) = (none, some comma) := by
        rw [decideSeps, if_neg (fun hh => hnd hh.2), if_pos hsep_mem,
          if_pos hlooks]
      have htr : transformToken (format3 n comma) = natStr n := by
        simp only [transformToken, hds]
        rw [hfilter_result]
        exact List.filter_eq_self.mpr
          (fun c hc => digit_not_comma_dot (hD_dig c hc))
      rw [htr, floatOfToken_natStr]
    · have hnc : comma ∉ format3 n dot := fun hh =>
        absurd (hother comma hh (by decide)) (by decide)
      have hds : decideSeps (format3 n dot) = (none, some dot) := by
        rw [decideSeps, if_neg (fun hh => hnc hh.1), if_neg hnc,
          if_pos hsep_mem, if_pos hlooks]
      have htr : transformToken (format3 n dot) = natStr n := by
        simp only [transformToken, hds]
        rw [hfilter_result]
        exact List.filter_eq_self.mpr
          (fun c hc => digit_not_comma_dot (hD_dig c hc))
      rw [htr, floatOfToken_natStr]

/-- Witness for C3: `1234567` grouped with commas parses back to
`1234567`. -/
theorem c3_witness :
    parse_numeric (format3 1234567 comma) = some ((1234567 : ℕ) : ℚ) :=
  c3_format_roundtrip 1234567 comma (Or.inl rfl)

/-- C10: When a lone comma is classified as the decimal separator but
occurs at least twice in the token, the rewrite replaces every occurrence
(Python `str.replace`), the rewritten token contains at least two dots,
and conversion fails, so the parser returns `none`; concretely
`"1,234,56"` rewrites to `"1.234.56"` and parses to `none`. -/
theorem c10_multi_decimal_sep_none (tok : List Char) (hnd : dot ∉ tok)
    (hd : decideSeps tok = (some comma, none)) (hc : 2 ≤ tok.count comma) :
    transformToken tok = tok.map (fun c => if c = comma then dot else c) ∧
    2 ≤ (transformToken tok).count dot ∧
    floatOfToken (transformToken tok) = none ∧
    extractToken "1,234,56".toList = some "1,234,56".toList ∧
    transformToken "1,234,56".toList = "1.234.56".toList ∧
    parse_numeric "1,234,56".toList = none := by
  have htr : transformToken tok =
      tok.map (fun c => if c = comma then dot else c) := by
    simp [transformToken, hd]
    intro hcd
    exact absurd hcd (by decide)
  have hcount : 2 ≤ (transformToken tok).count dot := by
    rw [htr, count_dot_map_comma tok hnd]
    exact hc
  refine ⟨htr, hcount, ?_, by decide, by decide, by decide⟩
  have hlen : 3 ≤ (pySplit dot (transformToken tok)).length := by
    rw [pySplit_length]
    omega
  rcases hsplit : pySplit dot (transformToken tok) with _ | ⟨a, _ | ⟨b, _ | ⟨c, rest⟩⟩⟩ <;>
    rw [hsplit] at hlen <;> simp at hlen ⊢
  · simp [floatOfToken, hsplit]

/-- Witness for C10: the token extracted from `"1,234,56"`. -/
theorem c10_witness :
    transformToken "1,234,56".toList =
      "1,234,56".toList.map (fun c => if c = comma then dot else c) ∧
    2 ≤ (transformToken "1,234,56".toList).count dot ∧
    floatOfToken (transformToken "1,234,56".toList) = none ∧
    extractToken "1,234,56".toList = some "1,234,56".toList ∧
    transformToken "1,234,56".toList = "1.234.56".toList ∧
    parse_numeric "1,234,56".toList = none :=
  c10_multi_decimal_sep_none "1,234,56".toList (by decide) (by decide) (by decide)

end BuyBot
